import Mathlib

/-!
Verification of the Binary Combinatorial Generator (`main.py`).

The program enumerates every byte-exact file of a fixed TLV container
format: a 5-byte header (little-endian magic `0xFEE1900D` plus a section
count byte) followed by `N` sections, each `tag, length, value[length]`.
It works by depth-first search over a single shared 65540-byte buffer,
yielding an independent snapshot of the buffer prefix at each leaf.

The embedding below models the buffer as a `List Nat` and every buffer
mutation with Python `bytearray` slice-assignment semantics (which clamp
out-of-range indices and silently resize the buffer when the replaced
slice and the data differ in length — the code contains no bounds guard).
-/

namespace BinGen

/-- Embeds `Initializer.sample_init`:
`list(itertools.product(range(256), repeat=2))`, i.e. all (tag, length)
byte pairs in tag-major, length-minor order. -/
def sample_init : List (Nat × Nat) :=
  (List.range 256).flatMap (fun t => (List.range 256).map (fun l => (t, l)))

/-- Embeds `Initializer.byte_array_init`: `bytearray(65540)`, a zero-filled
buffer of capacity 65540. -/
def byte_array_init : List Nat := List.replicate 65540 0

/-- Little-endian packing of a 32-bit value into 4 bytes, as
`struct.pack("<I", x)`. -/
def pack_le4 (x : Nat) : List Nat :=
  [x % 256, x / 256 % 256, x / 65536 % 256, x / 16777216 % 256]

/-- Embeds `Initializer.get_magic`: `struct.pack("<I", 0xFEE1900D)`. -/
def get_magic : List Nat := pack_le4 0xFEE1900D

/-- Python `bytearray` slice assignment `b[i : i + len(d)] = d` for a
nonnegative start index: the slice bounds are clamped to the list, and the
replaced slice is substituted by `d`, resizing the buffer when the write
reaches past the end.  (`List.take` and `List.drop` clamp exactly as Python
slice bounds do.) -/
def setSlice (b : List Nat) (i : Nat) (d : List Nat) : List Nat :=
  b.take i ++ d ++ b.drop (i + d.length)

/-- Python `bytearray` item assignment `b[i] = v` for an in-range index. -/
def setByte (b : List Nat) (i v : Nat) : List Nat :=
  b.take i ++ [v] ++ b.drop (i + 1)

/-- Embeds `itertools.product(range(256), repeat=n)`: all `n`-byte tuples
in odometer order (first byte slowest, last byte fastest). -/
def prodR : Nat → List (List Nat)
  | 0 => [[]]
  | n + 1 => (List.range 256).flatMap (fun x => (prodR n).map (fun t => x :: t))

/-- The inner loop of `Generator.dfs` (`for value in itertools.product(...)`):
writes each candidate value at `offset + 2` and recurses at
`offset + 2 + length`.  `recur` stands for the recursive call
`dfs(current_sec_idx + 1, total_sections, ·)`; emitted files accumulate in
loop order and the buffer state threads through the iterations. -/
def valLoop (recur : List Nat → Nat → List (List Nat) × List Nat) :
    List (List Nat) → List Nat → Nat → Nat → List (List Nat) × List Nat
  | [], buf, _, _ => ([], buf)
  | v :: rest, buf, offset, len =>
    let b2 := setSlice buf (offset + 2) v
    let p := recur b2 (offset + 2 + len)
    let q := valLoop recur rest p.2 offset len
    (p.1 ++ q.1, q.2)

/-- The outer loop of `Generator.dfs` (`for tl in self.tl_pairs`): writes
the tag and length bytes at `offset`, then either recurses directly
(`length == 0`) or runs the value loop. -/
def pairLoop (recur : List Nat → Nat → List (List Nat) × List Nat) :
    List (Nat × Nat) → List Nat → Nat → List (List Nat) × List Nat
  | [], buf, _ => ([], buf)
  | tl :: rest, buf, offset =>
    let b1 := setSlice buf offset [tl.1, tl.2]
    let p :=
      if tl.2 = 0 then recur b1 (offset + 2)
      else valLoop recur (prodR tl.2) b1 offset tl.2
    let q := pairLoop recur rest p.2 offset
    (p.1 ++ q.1, q.2)

/-- Embeds `Generator.dfs(current_sec_idx, total_sections, offset)`,
indexed by the number `r = total_sections - current_sec_idx` of sections
still to generate (every call the program makes has
`current_sec_idx ≤ total_sections`).  At a leaf it emits the snapshot
`bytes(self.buffer[:offset])` and returns; otherwise it loops over the
precomputed (tag, length) pairs. -/
def dfs : Nat → List Nat → Nat → List (List Nat) × List Nat
  | 0, buf, offset => ([buf.take offset], buf)
  | r + 1, buf, offset => pairLoop (dfs r) sample_init buf offset

/-- Embeds `Generator.generate_all(total_sections)`: writes the magic at
offsets 0–3 and the section count at offset 4, then runs the DFS from
offset 5.  `self.buffer[4] = total_sections` raises `ValueError` unless
`0 ≤ total_sections < 256`; the raise is modelled as `Except.error` (in
Python it surfaces when the first value is pulled from the generator). -/
def generate_all (b : List Nat) (n : Int) :
    Except String (List (List Nat) × List Nat) :=
  let b1 := setSlice b 0 get_magic
  if 0 ≤ n ∧ n < 256 then
    Except.ok (dfs n.toNat (setByte b1 4 n.toNat) 5)
  else
    Except.error "byte must be in range(0, 256)"

/-- The list of files a run of `generate_all` emits (empty when the call
raises before yielding anything). -/
def okFiles (b : List Nat) (n : Int) : List (List Nat) :=
  match generate_all b n with
  | .ok p => p.1
  | .error _ => []

/-- Instrumented variant of `valLoop` that additionally records every
buffer write `(offset, bytes)` in execution order. -/
def valLoopL (recur : List Nat → Nat → List (List Nat) × List Nat × List (Nat × List Nat)) :
    List (List Nat) → List Nat → Nat → Nat →
      List (List Nat) × List Nat × List (Nat × List Nat)
  | [], buf, _, _ => ([], buf, [])
  | v :: rest, buf, offset, len =>
    let p := recur (setSlice buf (offset + 2) v) (offset + 2 + len)
    let q := valLoopL recur rest p.2.1 offset len
    (p.1 ++ q.1, q.2.1, (offset + 2, v) :: (p.2.2 ++ q.2.2))

/-- Instrumented variant of `pairLoop` recording every buffer write. -/
def pairLoopL (recur : List Nat → Nat → List (List Nat) × List Nat × List (Nat × List Nat)) :
    List (Nat × Nat) → List Nat → Nat →
      List (List Nat) × List Nat × List (Nat × List Nat)
  | [], buf, _ => ([], buf, [])
  | tl :: rest, buf, offset =>
    let p :=
      if tl.2 = 0 then recur (setSlice buf offset [tl.1, tl.2]) (offset + 2)
      else valLoopL recur (prodR tl.2) (setSlice buf offset [tl.1, tl.2]) offset tl.2
    let q := pairLoopL recur rest p.2.1 offset
    (p.1 ++ q.1, q.2.1, (offset, [tl.1, tl.2]) :: (p.2.2 ++ q.2.2))

/-- Instrumented variant of `dfs` recording every buffer write the
traversal performs, in execution order. -/
def dfsL : Nat → List Nat → Nat → List (List Nat) × List Nat × List (Nat × List Nat)
  | 0, buf, offset => ([buf.take offset], buf, [])
  | r + 1, buf, offset => pairLoopL (dfsL r) sample_init buf offset

/-- Replays a recorded write sequence against a buffer. -/
def replay (L : List (Nat × List Nat)) (b : List Nat) : List Nat :=
  L.foldl (fun acc w => setSlice acc w.1 w.2) b

/-- The shared buffer just after `generate_all` wrote the header for
section count `m` on a freshly constructed `Generator`. -/
def hdrBuf (m : Nat) : List Nat :=
  setByte (setSlice byte_array_init 0 get_magic) 4 m

/-- The write log of the whole DFS traversal for section count `m` on a
freshly constructed `Generator`. -/
def traversalLog (m : Nat) : List (Nat × List Nat) :=
  (dfsL m (hdrBuf m) 5).2.2

/-- Specification-side definition (§4.4 of the design): the ordered list of
all single-section encodings `tag :: length :: value`, tag-major,
length-minor, value bytes in odometer order. -/
def sectionEncs : List (List Nat) :=
  sample_init.flatMap (fun tl => (prodR tl.2).map (fun v => tl.1 :: tl.2 :: v))

/-- Specification-side definition: the lexicographic cross-product order of
`n`-section bodies — nested-loop enumeration with section 0 as the
outermost loop. -/
def filesSpec : Nat → List (List Nat)
  | 0 => [[]]
  | n + 1 => sectionEncs.flatMap (fun s => (filesSpec n).map (fun f => s ++ f))

/-- The induction invariant for the DFS at `r` remaining sections: on any
buffer roomy enough, it emits exactly the cross-product file list prefixed
by the buffer contents below `off`, and it neither resizes the buffer nor
disturbs the bytes below `off`. -/
def RecurOk (r : Nat) (recur : List Nat → Nat → List (List Nat) × List Nat) : Prop :=
  ∀ buf off, off + r * 257 ≤ buf.length →
    (recur buf off).1 = (filesSpec r).map (fun s => buf.take off ++ s) ∧
    (recur buf off).2.length = buf.length ∧
    (recur buf off).2.take off = buf.take off

theorem length_setSlice {b d : List Nat} {i : Nat} (h : i + d.length ≤ b.length) :
    (setSlice b i d).length = b.length := by
  simp only [setSlice, List.length_append, List.length_take, List.length_drop]
  omega

theorem take_setSlice_of_le {b d : List Nat} {i j : Nat} (hj : j ≤ i)
    (hi : i ≤ b.length) : (setSlice b i d).take j = b.take j := by
  unfold setSlice
  rw [List.append_assoc, List.take_append_of_le_length, List.take_take]
  · exact congrArg (fun k => List.take k b) (Nat.min_eq_left hj)
  · rw [List.length_take]; omega

theorem take_setSlice_full {b d : List Nat} {i : Nat}
    (h : i + d.length ≤ b.length) :
    (setSlice b i d).take (i + d.length) = b.take i ++ d := by
  unfold setSlice
  refine List.take_left' ?_
  rw [List.length_append, List.length_take]
  omega

theorem length_mem_prodR {n : Nat} {v : List Nat} (h : v ∈ prodR n) :
    v.length = n := by
  induction n generalizing v with
  | zero => simp only [prodR, List.mem_singleton] at h; simp [h]
  | succ m ih =>
    simp only [prodR, List.mem_flatMap, List.mem_map] at h
    obtain ⟨x, -, t, ht, rfl⟩ := h
    simp [ih ht]

theorem snd_mem_sample_init {tl : Nat × Nat} (h : tl ∈ sample_init) :
    tl.2 < 256 := by
  simp only [sample_init, List.mem_flatMap, List.mem_map] at h
  obtain ⟨t, -, l, hl, rfl⟩ := h
  exact List.mem_range.mp hl

theorem valLoop_ok {r : Nat} {recur : List Nat → Nat → List (List Nat) × List Nat}
    (hrec : RecurOk r recur) (len : Nat) :
    ∀ (vals : List (List Nat)) (buf : List Nat) (off : Nat),
      (∀ v ∈ vals, v.length = len) →
      off + 2 + len + r * 257 ≤ buf.length →
      (valLoop recur vals buf off len).1
        = vals.flatMap (fun v =>
            (filesSpec r).map (fun s => buf.take (off + 2) ++ v ++ s)) ∧
      (valLoop recur vals buf off len).2.length = buf.length ∧
      (valLoop recur vals buf off len).2.take (off + 2) = buf.take (off + 2) := by
  intro vals
  induction vals with
  | nil => intro buf off _ _; simp [valLoop]
  | cons v rest ih =>
    intro buf off hlen hroom
    have hv : v.length = len := hlen v (by simp)
    have hvin : off + 2 + v.length ≤ buf.length := by omega
    have hb2len : (setSlice buf (off + 2) v).length = buf.length :=
      length_setSlice hvin
    obtain ⟨hp1, hp2, hp3⟩ :=
      hrec (setSlice buf (off + 2) v) (off + 2 + len) (by omega)
    have hsnap : (setSlice buf (off + 2) v).take (off + 2 + len)
        = buf.take (off + 2) ++ v := by
      rw [← hv] at hroom ⊢
      exact take_setSlice_full (by omega)
    have hptake : (recur (setSlice buf (off + 2) v) (off + 2 + len)).2.take (off + 2)
        = buf.take (off + 2) := by
      have h1 : (recur (setSlice buf (off + 2) v) (off + 2 + len)).2.take (off + 2)
          = ((recur (setSlice buf (off + 2) v) (off + 2 + len)).2.take
              (off + 2 + len)).take (off + 2) := by
        rw [List.take_take, Nat.min_eq_left (by omega)]
      rw [h1, hp3, List.take_take, Nat.min_eq_left (by omega)]
      exact take_setSlice_of_le (Nat.le_refl _) (by omega)
    obtain ⟨hq1, hq2, hq3⟩ :=
      ih (recur (setSlice buf (off + 2) v) (off + 2 + len)).2 off
        (fun w hw => hlen w (by simp [hw]))
        (by rw [hp2, hb2len]; omega)
    refine ⟨?_, ?_, ?_⟩
    · simp only [valLoop, List.flatMap_cons]
      rw [hp1, hq1, hsnap, hptake]
    · simp only [valLoop]; rw [hq2, hp2, hb2len]
    · simp only [valLoop]; rw [hq3, hptake]

theorem pairLoop_ok {r : Nat} {recur : List Nat → Nat → List (List Nat) × List Nat}
    (hrec : RecurOk r recur) :
    ∀ (pairs : List (Nat × Nat)) (buf : List Nat) (off : Nat),
      (∀ tl ∈ pairs, tl.2 < 256) →
      off + 257 + r * 257 ≤ buf.length →
      (pairLoop recur pairs buf off).1
        = pairs.flatMap (fun tl => (prodR tl.2).flatMap (fun v =>
            (filesSpec r).map (fun s => buf.take off ++ tl.1 :: tl.2 :: (v ++ s)))) ∧
      (pairLoop recur pairs buf off).2.length = buf.length ∧
      (pairLoop recur pairs buf off).2.take off = buf.take off := by
  intro pairs
  induction pairs with
  | nil => intro buf off _ _; simp [pairLoop]
  | cons tl rest ih =>
    intro buf off hpairs hroom
    have htl : tl.2 < 256 := hpairs tl (by simp)
    have hb1len : (setSlice buf off [tl.1, tl.2]).length = buf.length :=
      length_setSlice (by simp; omega)
    have hb1snap : (setSlice buf off [tl.1, tl.2]).take (off + 2)
        = buf.take off ++ [tl.1, tl.2] := by
      have := take_setSlice_full (b := buf) (d := [tl.1, tl.2]) (i := off)
        (by simp; omega)
      simpa using this
    have hb1low : (setSlice buf off [tl.1, tl.2]).take off = buf.take off :=
      take_setSlice_of_le (Nat.le_refl _) (by omega)
    -- the body of one loop iteration (recursion or value loop)
    have hbody :
        ((if tl.2 = 0 then recur (setSlice buf off [tl.1, tl.2]) (off + 2)
          else valLoop recur (prodR tl.2) (setSlice buf off [tl.1, tl.2]) off tl.2)).1
          = (prodR tl.2).flatMap (fun v =>
              (filesSpec r).map (fun s => buf.take off ++ tl.1 :: tl.2 :: (v ++ s))) ∧
        ((if tl.2 = 0 then recur (setSlice buf off [tl.1, tl.2]) (off + 2)
          else valLoop recur (prodR tl.2) (setSlice buf off [tl.1, tl.2]) off tl.2)).2.length
          = buf.length ∧
        ((if tl.2 = 0 then recur (setSlice buf off [tl.1, tl.2]) (off + 2)
          else valLoop recur (prodR tl.2) (setSlice buf off [tl.1, tl.2]) off tl.2)).2.take off
          = buf.take off := by
      by_cases h0 : tl.2 = 0
      · obtain ⟨hp1, hp2, hp3⟩ :=
          hrec (setSlice buf off [tl.1, tl.2]) (off + 2) (by rw [hb1len]; omega)
        refine ⟨?_, ?_, ?_⟩
        · rw [if_pos h0, hp1, hb1snap, h0]
          simp [prodR]
        · rw [if_pos h0, hp2, hb1len]
        · rw [if_pos h0]
          have h1 : (recur (setSlice buf off [tl.1, tl.2]) (off + 2)).2.take off
              = ((recur (setSlice buf off [tl.1, tl.2]) (off + 2)).2.take
                  (off + 2)).take off := by
            rw [List.take_take, Nat.min_eq_left (by omega)]
          rw [h1, hp3, List.take_take, Nat.min_eq_left (by omega), hb1low]
      · obtain ⟨hv1, hv2, hv3⟩ :=
          valLoop_ok hrec tl.2 (prodR tl.2) (setSlice buf off [tl.1, tl.2]) off
            (fun v hv => length_mem_prodR hv) (by rw [hb1len]; omega)
        refine ⟨?_, ?_, ?_⟩
        · rw [if_neg h0, hv1, hb1snap]
          simp only [List.cons_append, List.nil_append, List.append_assoc]
        · rw [if_neg h0, hv2, hb1len]
        · rw [if_neg h0]
          have h1 : (valLoop recur (prodR tl.2) (setSlice buf off [tl.1, tl.2]) off tl.2).2.take off
              = ((valLoop recur (prodR tl.2) (setSlice buf off [tl.1, tl.2]) off tl.2).2.take
                  (off + 2)).take off := by
            rw [List.take_take, Nat.min_eq_left (by omega)]
          rw [h1, hv3, List.take_take, Nat.min_eq_left (by omega), hb1low]
    obtain ⟨hp1, hp2, hp3⟩ := hbody
    obtain ⟨hq1, hq2, hq3⟩ :=
      ih ((if tl.2 = 0 then recur (setSlice buf off [tl.1, tl.2]) (off + 2)
          else valLoop recur (prodR tl.2) (setSlice buf off [tl.1, tl.2]) off tl.2)).2
        off (fun w hw => hpairs w (by simp [hw])) (by rw [hp2]; omega)
    refine ⟨?_, ?_, ?_⟩
    · simp only [pairLoop, List.flatMap_cons]
      rw [hp1, hq1, hp3]
    · simp only [pairLoop]; rw [hq2, hp2]
    · simp only [pairLoop]; rw [hq3, hp3]

/-- The DFS with `r` remaining sections satisfies the invariant: its output
is exactly the cross-product enumeration appended to the frozen buffer
prefix, and it preserves buffer length and the prefix below its offset. -/
theorem dfs_ok : ∀ r, RecurOk r (dfs r) := by
  intro r
  induction r with
  | zero => intro buf off _; simp [dfs, filesSpec]
  | succ m ih =>
    intro buf off h
    have hroom : off + 257 + m * 257 ≤ buf.length := by
      have : (m + 1) * 257 = m * 257 + 257 := by ring
      omega
    obtain ⟨h1, h2, h3⟩ :=
      pairLoop_ok ih sample_init buf off (fun tl htl => snd_mem_sample_init htl) hroom
    refine ⟨?_, h2, h3⟩
    show (pairLoop (dfs m) sample_init buf off).1 = _
    rw [h1]
    show _ = (filesSpec (m + 1)).map (fun s => buf.take off ++ s)
    simp only [filesSpec, sectionEncs, List.map_flatMap, List.flatMap_assoc,
      List.flatMap_map, List.map_map]
    refine List.flatMap_congr ?_  -- may not exist; fallback below
    intro tl _
    rfl

theorem generate_all_ok {b : List Nat} {n : Nat} (hn : n < 256) :
    generate_all b n
      = Except.ok (dfs n (setByte (setSlice b 0 get_magic) 4 n) 5) := by
  have h1 : ((n : Int) < 256) := by exact_mod_cast hn
  simp [generate_all, Int.ofNat_nonneg, h1]

theorem okFiles_eq {b : List Nat} {n : Nat} (hn : n < 256) :
    okFiles b n = (dfs n (setByte (setSlice b 0 get_magic) 4 n) 5).1 := by
  simp [okFiles, generate_all_ok hn]

theorem take5_header {b : List Nat} (n : Nat) (hb : 5 ≤ b.length) :
    (setByte (setSlice b 0 get_magic) 4 n).take 5 = get_magic ++ [n] := by
  have e1 : setSlice b 0 get_magic = get_magic ++ b.drop 4 := by
    simp [setSlice, get_magic, pack_le4]
  have hlen4 : (get_magic ++ b.drop 4).take 4 = get_magic :=
    List.take_left' (by simp [get_magic, pack_le4])
  rw [e1]
  unfold setByte
  rw [hlen4]
  refine List.take_left' ?_
  simp [get_magic, pack_le4]

theorem length_header {b : List Nat} (n : Nat) (hb : 5 ≤ b.length) :
    (setByte (setSlice b 0 get_magic) 4 n).length = b.length := by
  simp only [setByte, setSlice, get_magic, pack_le4, List.length_append,
    List.length_take, List.length_drop, List.length_cons, List.length_nil]
  omega

/-- The emitted file list of every valid run is the cross-product enumeration
prefixed by the 5-byte header, for any starting buffer of capacity 65540. -/
theorem okFiles_char {n : Nat} (hn : n < 256) {b : List Nat}
    (hb : b.length = 65540) :
    okFiles b n = (filesSpec n).map (fun s => get_magic ++ n :: s) := by
  rw [okFiles_eq hn]
  have hlen : (setByte (setSlice b 0 get_magic) 4 n).length = 65540 := by
    rw [length_header n (by omega)]; exact hb
  have hmul : n * 257 ≤ 255 * 257 := Nat.mul_le_mul_right _ (by omega)
  obtain ⟨h1, -, -⟩ := dfs_ok n (setByte (setSlice b 0 get_magic) 4 n) 5
    (by rw [hlen]; omega)
  rw [h1, take5_header n (by omega)]
  simp [List.append_assoc]

theorem valLoopL_agree {recurL : List Nat → Nat → List (List Nat) × List Nat × List (Nat × List Nat)}
    {recur : List Nat → Nat → List (List Nat) × List Nat}
    (h : ∀ b o, (recurL b o).1 = (recur b o).1 ∧ (recurL b o).2.1 = (recur b o).2) :
    ∀ (vals : List (List Nat)) (buf : List Nat) (off len : Nat),
      (valLoopL recurL vals buf off len).1 = (valLoop recur vals buf off len).1 ∧
      (valLoopL recurL vals buf off len).2.1 = (valLoop recur vals buf off len).2 := by
  intro vals
  induction vals with
  | nil => intro buf off len; simp [valLoopL, valLoop]
  | cons v rest ih =>
    intro buf off len
    obtain ⟨h1, h2⟩ := h (setSlice buf (off + 2) v) (off + 2 + len)
    simp only [valLoopL, valLoop]
    rw [h1, h2]
    exact ⟨by rw [(ih _ off len).1], (ih _ off len).2⟩

theorem pairLoopL_agree {recurL : List Nat → Nat → List (List Nat) × List Nat × List (Nat × List Nat)}
    {recur : List Nat → Nat → List (List Nat) × List Nat}
    (h : ∀ b o, (recurL b o).1 = (recur b o).1 ∧ (recurL b o).2.1 = (recur b o).2) :
    ∀ (pairs : List (Nat × Nat)) (buf : List Nat) (off : Nat),
      (pairLoopL recurL pairs buf off).1 = (pairLoop recur pairs buf off).1 ∧
      (pairLoopL recurL pairs buf off).2.1 = (pairLoop recur pairs buf off).2 := by
  intro pairs
  induction pairs with
  | nil => intro buf off; simp [pairLoopL, pairLoop]
  | cons tl rest ih =>
    intro buf off
    have hp : ((if tl.2 = 0 then recurL (setSlice buf off [tl.1, tl.2]) (off + 2)
          else valLoopL recurL (prodR tl.2) (setSlice buf off [tl.1, tl.2]) off tl.2)).1
          = ((if tl.2 = 0 then recur (setSlice buf off [tl.1, tl.2]) (off + 2)
          else valLoop recur (prodR tl.2) (setSlice buf off [tl.1, tl.2]) off tl.2)).1 ∧
        ((if tl.2 = 0 then recurL (setSlice buf off [tl.1, tl.2]) (off + 2)
          else valLoopL recurL (prodR tl.2) (setSlice buf off [tl.1, tl.2]) off tl.2)).2.1
          = ((if tl.2 = 0 then recur (setSlice buf off [tl.1, tl.2]) (off + 2)
          else valLoop recur (prodR tl.2) (setSlice buf off [tl.1, tl.2]) off tl.2)).2 := by
      by_cases h0 : tl.2 = 0
      · simp only [if_pos h0]; exact h _ _
      · simp only [if_neg h0]; exact valLoopL_agree h _ _ _ _
    obtain ⟨hp1, hp2⟩ := hp
    simp only [pairLoopL, pairLoop]
    rw [hp1, hp2]
    exact ⟨by rw [(ih _ off).1], (ih _ off).2⟩

/-- The instrumented traversal computes the same emitted files and the
same final buffer as the plain embedding of `Generator.dfs`. -/
theorem dfsL_agree : ∀ (r : Nat) (buf : List Nat) (off : Nat),
    (dfsL r buf off).1 = (dfs r buf off).1 ∧
    (dfsL r buf off).2.1 = (dfs r buf off).2 := by
  intro r
  induction r with
  | zero => intro buf off; simp [dfsL, dfs]
  | succ m ih =>
    intro buf off
    exact pairLoopL_agree (fun b o => ih b o) sample_init buf off

theorem valLoopL_log {r : Nat}
    {recurL : List Nat → Nat → List (List Nat) × List Nat × List (Nat × List Nat)}
    (hlog : ∀ b o, ∀ w ∈ (recurL b o).2.2, o ≤ w.1 ∧ w.1 + w.2.length ≤ o + r * 257) :
    ∀ (vals : List (List Nat)) (buf : List Nat) (off len : Nat),
      (∀ v ∈ vals, v.length = len) →
      ∀ w ∈ (valLoopL recurL vals buf off len).2.2,
        off + 2 ≤ w.1 ∧ w.1 + w.2.length ≤ off + 2 + len + r * 257 := by
  intro vals
  induction vals with
  | nil => intro buf off len _ w hw; simp [valLoopL] at hw
  | cons v rest ih =>
    intro buf off len hlen w hw
    simp only [valLoopL, List.mem_cons, List.mem_append] at hw
    rcases hw with hw | hw | hw
    · have hv : v.length = len := hlen v (by simp)
      subst hw; simp [hv]
    · have := hlog (setSlice buf (off + 2) v) (off + 2 + len) w hw
      omega
    · exact ih _ off len (fun x hx => hlen x (by simp [hx])) w hw

theorem pairLoopL_log {r : Nat}
    {recurL : List Nat → Nat → List (List Nat) × List Nat × List (Nat × List Nat)}
    (hlog : ∀ b o, ∀ w ∈ (recurL b o).2.2, o ≤ w.1 ∧ w.1 + w.2.length ≤ o + r * 257) :
    ∀ (pairs : List (Nat × Nat)) (buf : List Nat) (off : Nat),
      (∀ tl ∈ pairs, tl.2 < 256) →
      ∀ w ∈ (pairLoopL recurL pairs buf off).2.2,
        off ≤ w.1 ∧ w.1 + w.2.length ≤ off + 257 + r * 257 := by
  intro pairs
  induction pairs with
  | nil => intro buf off _ w hw; simp [pairLoopL] at hw
  | cons tl rest ih =>
    intro buf off hpairs w hw
    have htl : tl.2 < 256 := hpairs tl (by simp)
    simp only [pairLoopL, List.mem_cons, List.mem_append] at hw
    rcases hw with hw | hw | hw
    · subst hw; simp; omega
    · by_cases h0 : tl.2 = 0
      · rw [if_pos h0] at hw
        have := hlog (setSlice buf off [tl.1, tl.2]) (off + 2) w hw
        omega
      · rw [if_neg h0] at hw
        have := valLoopL_log hlog (prodR tl.2) (setSlice buf off [tl.1, tl.2])
          off tl.2 (fun v hv => length_mem_prodR hv) w hw
        omega
    · exact ih _ off (fun x hx => hpairs x (by simp [hx])) w hw

/-- Every write the traversal performs stays inside the window
`[off, off + r * 257)` of remaining-section room. -/
theorem dfsL_log : ∀ (r : Nat) (buf : List Nat) (off : Nat),
    ∀ w ∈ (dfsL r buf off).2.2, off ≤ w.1 ∧ w.1 + w.2.length ≤ off + r * 257 := by
  intro r
  induction r with
  | zero => intro buf off w hw; simp [dfsL] at hw
  | succ m ih =>
    intro buf off w hw
    have := pairLoopL_log (fun b o => ih b o) sample_init buf off
      (fun tl htl => snd_mem_sample_init htl) w hw
    have hs : (m + 1) * 257 = m * 257 + 257 := by ring
    omega

theorem replay_append (L1 L2 : List (Nat × List Nat)) (b : List Nat) :
    replay (L1 ++ L2) b = replay L2 (replay L1 b) := by
  simp [replay, List.foldl_append]

theorem valLoopL_replay
    {recurL : List Nat → Nat → List (List Nat) × List Nat × List (Nat × List Nat)}
    (hrep : ∀ b o, (recurL b o).2.1 = replay (recurL b o).2.2 b) :
    ∀ (vals : List (List Nat)) (buf : List Nat) (off len : Nat),
      (valLoopL recurL vals buf off len).2.1
        = replay (valLoopL recurL vals buf off len).2.2 buf := by
  intro vals
  induction vals with
  | nil => intro buf off len; simp [valLoopL, replay]
  | cons v rest ih =>
    intro buf off len
    simp only [valLoopL, replay, List.foldl_cons, List.foldl_append]
    rw [← replay, ← replay, ← replay_append, replay_append,
      ← hrep (setSlice buf (off + 2) v) (off + 2 + len)]
    exact ih _ off len

theorem pairLoopL_replay
    {recurL : List Nat → Nat → List (List Nat) × List Nat × List (Nat × List Nat)}
    (hrep : ∀ b o, (recurL b o).2.1 = replay (recurL b o).2.2 b) :
    ∀ (pairs : List (Nat × Nat)) (buf : List Nat) (off : Nat),
      (pairLoopL recurL pairs buf off).2.1
        = replay (pairLoopL recurL pairs buf off).2.2 buf := by
  intro pairs
  induction pairs with
  | nil => intro buf off; simp [pairLoopL, replay]
  | cons tl rest ih =>
    intro buf off
    have hp : ((if tl.2 = 0 then recurL (setSlice buf off [tl.1, tl.2]) (off + 2)
          else valLoopL recurL (prodR tl.2) (setSlice buf off [tl.1, tl.2]) off tl.2)).2.1
        = replay ((if tl.2 = 0 then recurL (setSlice buf off [tl.1, tl.2]) (off + 2)
          else valLoopL recurL (prodR tl.2) (setSlice buf off [tl.1, tl.2]) off tl.2)).2.2
            (setSlice buf off [tl.1, tl.2]) := by
      by_cases h0 : tl.2 = 0
      · simp only [if_pos h0]; exact hrep _ _
      · simp only [if_neg h0]; exact valLoopL_replay hrep _ _ _ _
    simp only [pairLoopL, replay, List.foldl_cons, List.foldl_append]
    rw [← replay, ← replay, ← replay_append, replay_append, ← hp]
    exact ih _ off

/-- The final buffer of the traversal is the replay of its write log against
the starting buffer. -/
theorem dfsL_replay : ∀ (r : Nat) (buf : List Nat) (off : Nat),
    (dfsL r buf off).2.1 = replay (dfsL r buf off).2.2 buf := by
  intro r
  induction r with
  | zero => intro buf off; simp [dfsL, replay]
  | succ m ih => intro buf off; exact pairLoopL_replay (fun b o => ih b o) sample_init buf off

/-- Replaying any prefix of an everywhere-in-bounds write log never
changes the length of the buffer. -/
theorem replay_take_length :
    ∀ (L : List (Nat × List Nat)) (b : List Nat) (n : Nat),
      b.length = n → (∀ w ∈ L, w.1 + w.2.length ≤ n) →
      ∀ k, (replay (L.take k) b).length = n := by
  intro L
  induction L with
  | nil => intro b n hb _ k; simp [replay, hb]
  | cons w rest ih =>
    intro b n hb hw k
    match k with
    | 0 => simpa [replay] using hb
    | k + 1 =>
      have hwb : (setSlice b w.1 w.2).length = n := by
        rw [length_setSlice (by rw [hb]; exact hw w (by simp))]; exact hb
      have := ih (setSlice b w.1 w.2) n hwb (fun x hx => hw x (by simp [hx])) k
      simpa [replay, List.take_succ_cons, List.foldl_cons] using this

/-- Every body in the cross-product enumeration decomposes into exactly
`n` well-formed TLV sections. -/
theorem mem_filesSpec {n : Nat} {body : List Nat} (h : body ∈ filesSpec n) :
    ∃ secs : List (Nat × Nat × List Nat),
      secs.length = n ∧ (∀ s ∈ secs, s.2.2.length = s.2.1) ∧
      body = (secs.map (fun s => s.1 :: s.2.1 :: s.2.2)).flatten := by
  induction n generalizing body with
  | zero =>
    simp only [filesSpec, List.mem_singleton] at h
    exact ⟨[], by simp, by simp, by simp [h]⟩
  | succ m ih =>
    simp only [filesSpec, List.mem_flatMap, List.mem_map] at h
    obtain ⟨e, he, rest, hrest, rfl⟩ := h
    simp only [sectionEncs, List.mem_flatMap, List.mem_map] at he
    obtain ⟨tl, htl, v, hv, rfl⟩ := he
    obtain ⟨secs, hl, hall, rfl⟩ := ih hrest
    refine ⟨(tl.1, tl.2, v) :: secs, by simp [hl], ?_, by simp⟩
    intro s hs
    rcases List.mem_cons.mp hs with rfl | hs
    · exact length_mem_prodR hv
    · exact hall s hs

theorem valLoop_append (recur : List Nat → Nat → List (List Nat) × List Nat) :
    ∀ (v1 v2 : List (List Nat)) (buf : List Nat) (off len : Nat),
      (valLoop recur (v1 ++ v2) buf off len).1
        = (valLoop recur v1 buf off len).1
          ++ (valLoop recur v2 (valLoop recur v1 buf off len).2 off len).1 ∧
      (valLoop recur (v1 ++ v2) buf off len).2
        = (valLoop recur v2 (valLoop recur v1 buf off len).2 off len).2 := by
  intro v1
  induction v1 with
  | nil => intro v2 buf off len; simp [valLoop]
  | cons v rest ih =>
    intro v2 buf off len
    simp only [List.cons_append, valLoop, List.append_eq]
    obtain ⟨h1, h2⟩ := ih v2 (recur (setSlice buf (off + 2) v) (off + 2 + len)).2 off len
    exact ⟨by rw [h1, List.append_assoc], h2⟩

theorem pairLoop_append (recur : List Nat → Nat → List (List Nat) × List Nat) :
    ∀ (p1 p2 : List (Nat × Nat)) (buf : List Nat) (off : Nat),
      (pairLoop recur (p1 ++ p2) buf off).1
        = (pairLoop recur p1 buf off).1
          ++ (pairLoop recur p2 (pairLoop recur p1 buf off).2 off).1 ∧
      (pairLoop recur (p1 ++ p2) buf off).2
        = (pairLoop recur p2 (pairLoop recur p1 buf off).2 off).2 := by
  intro p1
  induction p1 with
  | nil => intro p2 buf off; simp [pairLoop]
  | cons tl rest ih =>
    intro p2 buf off
    simp only [List.cons_append, pairLoop, List.append_eq]
    obtain ⟨h1, h2⟩ := ih p2
      ((if tl.2 = 0 then recur (setSlice buf off [tl.1, tl.2]) (off + 2)
        else valLoop recur (prodR tl.2) (setSlice buf off [tl.1, tl.2]) off tl.2)).2 off
    exact ⟨by rw [h1, List.append_assoc], h2⟩

theorem byte_array_init_length : byte_array_init.length = 65540 := by
  simp only [byte_array_init, List.length_replicate]

/-- C1: for every section count N in [0,255] the sequence of files emitted
by `generate_all` on a fresh generator is the lexicographic cross-product
enumeration (section 0 outermost; (tag, length) pairs tag-major and
length-minor via `sample_init`; value bytes in odometer order via
`prodR`), each file prefixed by the 5-byte header; in particular for N=1
the first three files are header+(0,0), header+(0,1,[0]),
header+(0,1,[1]). -/
theorem c1_lexicographic_order (n : Nat) (hn : n < 256) :
    okFiles byte_array_init n = (filesSpec n).map (fun s => get_magic ++ n :: s) ∧
    (okFiles byte_array_init 1).take 3
      = [get_magic ++ [1, 0, 0], get_magic ++ [1, 0, 1, 0], get_magic ++ [1, 0, 1, 1]] :=
  ⟨okFiles_char hn byte_array_init_length, by decide⟩

theorem c1_witness :
    (0 : Nat) < 256 ∧
    (okFiles byte_array_init 0 = (filesSpec 0).map (fun s => get_magic ++ 0 :: s) ∧
     (okFiles byte_array_init 1).take 3
       = [get_magic ++ [1, 0, 0], get_magic ++ [1, 0, 1, 0], get_magic ++ [1, 0, 1, 1]]) :=
  ⟨by decide, c1_lexicographic_order 0 (by decide)⟩

/-- C2: the claim requires a fail-fast guard on buffer overrun, but the
code has no guard at all: a write that would cross the 65540-byte
capacity (reachable by calling `dfs` directly at an oversized offset,
e.g. Python `dfs(0, 1, 65539)`) silently extends the buffer — Python
`bytearray` slice-assignment semantics — and a 65541-byte oversized file
is emitted with no internal-consistency error. -/
theorem c2_overrun_not_guarded :
    byte_array_init.length = 65540 ∧
    (dfs 1 byte_array_init 65539).1.head?
      = some (setSlice byte_array_init 65539 [0, 0]) ∧
    (setSlice byte_array_init 65539 [0, 0]).length = 65541 := by
  have hlen : (setSlice byte_array_init 65539 [(0 : Nat), 0]).length = 65541 := by
    unfold setSlice
    rw [List.length_append, List.length_append, List.length_take, List.length_drop,
      byte_array_init_length]
    simp only [List.length_cons, List.length_nil]
    omega
  refine ⟨byte_array_init_length, ?_, hlen⟩
  have h00 : sample_init.head? = some (0, 0) := by decide
  cases hs : sample_init with
  | nil => rw [hs] at h00; exact absurd h00 (by simp)
  | cons p rest =>
    rw [hs] at h00
    simp only [List.head?_cons, Option.some.injEq] at h00
    subst h00
    show (pairLoop (dfs 0) sample_init byte_array_init 65539).1.head? = _
    rw [hs]
    show ((setSlice byte_array_init 65539 [0, 0]).take (65539 + 2)
        :: (pairLoop (dfs 0) rest (setSlice byte_array_init 65539 [0, 0]) 65539).1).head?
      = some (setSlice byte_array_init 65539 [0, 0])
    rw [List.head?_cons, List.take_of_length_le (by rw [hlen])]

/-- C3: snapshot isolation — once a file has been emitted, the
further buffer mutation by the enumerator never alters it: extending either
DFS loop with further iterations (which overwrite the shared buffer)
only appends new files after the ones already emitted, leaving their
bytes unchanged. -/
theorem c3_snapshot_isolation (r : Nat) (p1 p2 : List (Nat × Nat))
    (v1 v2 : List (List Nat)) (buf : List Nat) (off len : Nat) :
    (pairLoop (dfs r) (p1 ++ p2) buf off).1
      = (pairLoop (dfs r) p1 buf off).1
        ++ (pairLoop (dfs r) p2 (pairLoop (dfs r) p1 buf off).2 off).1 ∧
    (valLoop (dfs r) (v1 ++ v2) buf off len).1
      = (valLoop (dfs r) v1 buf off len).1
        ++ (valLoop (dfs r) v2 (valLoop (dfs r) v1 buf off len).2 off len).1 :=
  ⟨(pairLoop_append (dfs r) p1 p2 buf off).1,
   (valLoop_append (dfs r) v1 v2 buf off len).1⟩

/-- C4: determinism — two independent runs on freshly constructed
generators (indeed on any two capacity-65540 buffers) that enumerate the
same N and pull the same count K produce byte-identical file
sequences. -/
theorem c4_determinism (n : Nat) (hn : n < 256) (K : Nat) (b1 b2 : List Nat)
    (h1 : b1.length = 65540) (h2 : b2.length = 65540) :
    (okFiles b1 n).take K = (okFiles b2 n).take K := by
  rw [okFiles_char hn h1, okFiles_char hn h2]

theorem c4_witness :
    (0 : Nat) < 256 ∧ byte_array_init.length = 65540 ∧
    (okFiles byte_array_init 0).take 1 = (okFiles byte_array_init 0).take 1 :=
  ⟨by decide, byte_array_init_length,
   c4_determinism 0 (by decide) 1 byte_array_init byte_array_init
     byte_array_init_length byte_array_init_length⟩

/-- C5: every emitted file begins with the little-endian magic bytes
`0D 90 E1 FE` followed by the section count byte N. -/
theorem c5_header_bytes (n : Nat) (hn : n < 256) (f : List Nat)
    (hf : f ∈ okFiles byte_array_init n) :
    f.take 5 = [0x0D, 0x90, 0xE1, 0xFE, n] := by
  rw [okFiles_char hn byte_array_init_length] at hf
  obtain ⟨s, -, rfl⟩ := List.mem_map.mp hf
  rw [show get_magic ++ n :: s = (get_magic ++ [n]) ++ s by simp]
  rw [List.take_left' (by simp [get_magic, pack_le4])]
  rfl

theorem c5_witness :
    (0 : Nat) < 256 ∧ [13, 144, 225, 254, 0] ∈ okFiles byte_array_init 0 ∧
    List.take 5 [13, 144, 225, 254, 0] = [0x0D, 0x90, 0xE1, 0xFE, 0] :=
  ⟨by decide, by decide, c5_header_bytes 0 (by decide) _ (by decide)⟩

/-- C6: every emitted file is the 5-byte header followed by exactly N
sections, each one tag byte, one length byte and exactly `length` value
bytes, so its total size is `5 + Σ (2 + length_i)`. -/
theorem c6_tlv_structure (n : Nat) (hn : n < 256) (f : List Nat)
    (hf : f ∈ okFiles byte_array_init n) :
    ∃ secs : List (Nat × Nat × List Nat),
      secs.length = n ∧
      (∀ s ∈ secs, s.2.2.length = s.2.1) ∧
      f = get_magic ++ n :: (secs.map (fun s => s.1 :: s.2.1 :: s.2.2)).flatten ∧
      f.length = 5 + (secs.map (fun s => 2 + s.2.1)).sum := by
  rw [okFiles_char hn byte_array_init_length] at hf
  obtain ⟨body, hbody, rfl⟩ := List.mem_map.mp hf
  obtain ⟨secs, hl, hall, rfl⟩ := mem_filesSpec hbody
  refine ⟨secs, hl, hall, rfl, ?_⟩
  have hm : (secs.map (fun s => (s.1 :: s.2.1 :: s.2.2 : List Nat))).map List.length
      = secs.map (fun s => 2 + s.2.1) := by
    rw [List.map_map]
    refine List.map_congr_left (fun s hs => ?_)
    simp only [Function.comp_apply, List.length_cons, hall s hs]
    omega
  simp only [List.length_append, List.length_cons, List.length_flatten, hm,
    get_magic, pack_le4]
  simp
  omega

theorem c6_witness :
    (0 : Nat) < 256 ∧ [13, 144, 225, 254, 0] ∈ okFiles byte_array_init 0 ∧
    (∃ secs : List (Nat × Nat × List Nat),
      secs.length = 0 ∧
      (∀ s ∈ secs, s.2.2.length = s.2.1) ∧
      ([13, 144, 225, 254, 0] : List Nat)
        = get_magic ++ 0 :: (secs.map (fun s => s.1 :: s.2.1 :: s.2.2)).flatten ∧
      ([13, 144, 225, 254, 0] : List Nat).length
        = 5 + (secs.map (fun s => 2 + s.2.1)).sum) :=
  ⟨by decide, by decide, c6_tlv_structure 0 (by decide) _ (by decide)⟩

/-- C7: `generate_all 0` yields exactly one file, the 5-byte header with
no trailing bytes, and the DFS performs no writes at all (its write log
is empty, since the base case is reached immediately with no iteration
over tag/length pairs). -/
theorem c7_zero_sections :
    okFiles byte_array_init 0 = [get_magic ++ [0]] ∧
    (get_magic ++ [0]).length = 5 ∧
    (dfsL 0 (hdrBuf 0) 5).2.2 = [] :=
  ⟨by decide, by decide, rfl⟩

/-- C8: every write of the traversal for section count N targets
`[5, 5 + N*257)`, the bound `5 + N*257` is at most the capacity 65540
with equality exactly at N=255, the buffer replayed through any prefix of
the write log keeps length 65540 (it is never resized), and the
final buffer of the traversal is exactly the full replay of its log. -/
theorem c8_write_bounds (n : Nat) (hn : n ≤ 255) :
    (∀ w ∈ traversalLog n, 5 ≤ w.1 ∧ w.1 + w.2.length ≤ 5 + n * 257) ∧
    5 + n * 257 ≤ 65540 ∧
    ((5 + n * 257 = 65540) ↔ n = 255) ∧
    (∀ k, (replay ((traversalLog n).take k) (hdrBuf n)).length = 65540) ∧
    (dfsL n (hdrBuf n) 5).2.1 = replay (traversalLog n) (hdrBuf n) := by
  have hlen : (hdrBuf n).length = 65540 := by
    rw [hdrBuf, length_header n (by rw [byte_array_init_length]; omega)]
    exact byte_array_init_length
  refine ⟨?_, by omega, by omega, ?_, dfsL_replay n (hdrBuf n) 5⟩
  · intro w hw
    have := dfsL_log n (hdrBuf n) 5 w hw
    omega
  · intro k
    exact replay_take_length (traversalLog n) (hdrBuf n) 65540 hlen
      (fun w hw => by have := dfsL_log n (hdrBuf n) 5 w hw; omega) k

theorem c8_witness :
    (0 : Nat) ≤ 255 ∧
    ((∀ w ∈ traversalLog 0, 5 ≤ w.1 ∧ w.1 + w.2.length ≤ 5 + 0 * 257) ∧
     5 + 0 * 257 ≤ 65540 ∧
     ((5 + 0 * 257 = 65540) ↔ (0 : Nat) = 255) ∧
     (∀ k, (replay ((traversalLog 0).take k) (hdrBuf 0)).length = 65540) ∧
     (dfsL 0 (hdrBuf 0) 5).2.1 = replay (traversalLog 0) (hdrBuf 0)) :=
  ⟨by decide, c8_write_bounds 0 (by decide)⟩

/-- C9: for any section count outside [0,255] (e.g. 256 or a negative
value), pulling from `generate_all` raises at the section-count byte
write (`self.buffer[4] = total_sections`, a `ValueError`) and no file is
emitted. -/
theorem c9_invalid_section_count (n : Int) (h : n < 0 ∨ 256 ≤ n) :
    generate_all byte_array_init n
      = Except.error "byte must be in range(0, 256)" ∧
    okFiles byte_array_init n = [] := by
  have hc : ¬(0 ≤ n ∧ n < 256) := by omega
  exact ⟨by simp [generate_all, hc], by simp [okFiles, generate_all, hc]⟩

theorem c9_witness :
    ((256 : Int) < 0 ∨ (256 : Int) ≤ 256) ∧
    (generate_all byte_array_init 256
       = Except.error "byte must be in range(0, 256)" ∧
     okFiles byte_array_init 256 = []) :=
  ⟨by decide, c9_invalid_section_count 256 (by decide)⟩

/-- C10: no state leak across traversals on one generator instance —
starting a traversal for N from the buffer as left by any prefix (any
abandonment point, or completion) of an earlier traversal for any count
yields exactly the same files as on a freshly constructed generator,
because the header and every emitted byte are rewritten before
emission. -/
theorem c10_no_state_leak (np n : Nat) (hp : np < 256) (hn : n < 256) (k : Nat) :
    okFiles (replay ((traversalLog np).take k) (hdrBuf np)) n
      = okFiles byte_array_init n := by
  have hlenp : (hdrBuf np).length = 65540 := by
    rw [hdrBuf, length_header np (by rw [byte_array_init_length]; omega)]
    exact byte_array_init_length
  have hlen : (replay ((traversalLog np).take k) (hdrBuf np)).length = 65540 :=
    replay_take_length (traversalLog np) (hdrBuf np) 65540 hlenp
      (fun w hw => by have := dfsL_log np (hdrBuf np) 5 w hw; omega) k
  rw [okFiles_char hn hlen, okFiles_char hn byte_array_init_length]

theorem c10_witness :
    (0 : Nat) < 256 ∧
    okFiles (replay ((traversalLog 0).take 0) (hdrBuf 0)) 0
      = okFiles byte_array_init 0 :=
  ⟨by decide, c10_no_state_leak 0 0 (by decide) (by decide) 0⟩

-- sanity examples evaluating the embedding on small concrete inputs
example : get_magic = [0x0D, 0x90, 0xE1, 0xFE] := by decide
example : sample_init.take 2 = [(0, 0), (0, 1)] := by decide
example : (prodR 1).take 2 = [[0], [1]] := by decide
example : setSlice [9, 9, 9] 1 [5, 5] = [9, 5, 5] := by decide
example : setSlice [9, 9, 9] 2 [5, 5] = [9, 9, 5, 5] := by decide
example : setSlice [9, 9, 9] 7 [5, 5] = [9, 9, 9, 5, 5] := by decide
example : okFiles byte_array_init 0 = [[0x0D, 0x90, 0xE1, 0xFE, 0]] := by decide
example : (okFiles byte_array_init 1).take 3
    = [[0x0D, 0x90, 0xE1, 0xFE, 1, 0, 0],
       [0x0D, 0x90, 0xE1, 0xFE, 1, 0, 1, 0],
       [0x0D, 0x90, 0xE1, 0xFE, 1, 0, 1, 1]] := by decide
example : (okFiles byte_array_init 2).take 2
    = [[0x0D, 0x90, 0xE1, 0xFE, 2, 0, 0, 0, 0],
       [0x0D, 0x90, 0xE1, 0xFE, 2, 0, 0, 0, 1, 0]] := by decide
example : generate_all byte_array_init 256 = .error "byte must be in range(0, 256)" := by rfl

end BinGen
